import Mathlib

/-!
Shallow embedding of `turing-foam` (`src/main.rs`) and verification of its
specification claims.

The Rust program is a small artificial-chemistry simulator: a pool of
fixed-length (64-byte) programs, a tape-machine interpreter `execute`, a
reaction loop `react` that concatenates two sampled programs, runs the
interpreter, writes both halves back, and a statistics pass building a
`(position, byte)` histogram.

Modelling conventions:
* `u8` and `usize` values are `Nat`; machine arithmetic that can wrap is
  embedded with an explicit modulus (`% 256` for bytes, `% 2 ^ 64` for
  `usize`), i.e. the release-mode (wrapping) semantics of Rust integer
  overflow.  The expression `(head0 - 1) % N` of the source is therefore
  embedded as `((head0 + (2 ^ 64 - 1)) % 2 ^ 64) % N` (`decWrap`).
* The tape `[u8; N]` is a `List Nat`; reads are `List.getD` (all reads in
  reachable states are in bounds), writes are `List.set`.
* The implicit RNG of `react` is made explicit: the sequence of sampled
  `(program0, program1, start ip)` triples is a parameter.
-/

namespace TuringFoam

/-- `enum ProgramStatus` of the source. -/
inductive ProgramStatus where
  | TimedOut
  | UnmatchedBranch
deriving DecidableEq, Repr

/-- The modulus of Rust `usize` arithmetic (64-bit target). -/
def USIZE : Nat := 2 ^ 64

/-- Rust `(x - 1) % n` on `usize`, release (wrapping) semantics:
the subtraction wraps modulo `2 ^ 64` before the reduction modulo `n`. -/
def decWrap (n x : Nat) : Nat := ((x + (USIZE - 1)) % USIZE) % n

/-- Rust `v -= 1` on a `u8` cell, release (wrapping) semantics. -/
def u8sub1 (v : Nat) : Nat := (v + 255) % 256

/-- Rust `v += 1` on a `u8` cell, release (wrapping) semantics. -/
def u8add1 (v : Nat) : Nat := (v + 1) % 256

/-- The forward bracket scan of the `b'['` arm:
`tape[ip..].iter().position(|&c| { .. depth .. ; depth == 0 })`.
The argument list is `tape[ip..]`; the closure's running `depth` starts at 0,
is updated on every scanned byte (`[` adds one, `]` subtracts one) and the
position of the first byte after which `depth == 0` is returned. -/
def scanForward : List Nat → Int → Option Nat
  | [], _ => none
  | c :: rest, depth =>
    let d := if c = 91 then depth + 1 else if c = 93 then depth - 1 else depth
    if d = 0 then some 0 else (scanForward rest d).map (fun o => o + 1)

/-- The backward bracket scan of the `b']'` arm:
`tape[..=ip].iter().rev().position(|&c| { .. depth .. ; depth == 0 })`.
The argument list is `tape[..=ip]` reversed; `]` adds one to the depth,
`[` subtracts one. -/
def scanBackward : List Nat → Int → Option Nat
  | [], _ => none
  | c :: rest, depth =>
    let d := if c = 93 then depth + 1 else if c = 91 then depth - 1 else depth
    if d = 0 then some 0 else (scanBackward rest d).map (fun o => o + 1)

/-- The interpreter state of `execute`: the tape and the three indices. -/
structure MachState where
  tape : List Nat
  ip : Nat
  head0 : Nat
  head1 : Nat
deriving DecidableEq, Repr

/-- One arm of the `match tape[ip]` dispatch of `execute`, applied to the
opcode `op` (the byte at `ip`).  Returns `none` exactly when the source
returns `ProgramStatus::UnmatchedBranch` from inside the match; otherwise
the state before the common `ip = (ip + 1) % tape.len()` advance.
Byte values: `<` 60, `>` 62, `{` 123, `}` 125, `-` 45, `+` 43, `.` 46,
`,` 44, `[` 91, `]` 93. -/
def execOp (op : Nat) (s : MachState) : Option MachState :=
  let n := s.tape.length
  if op = 60 then some { s with head0 := decWrap n s.head0 }
  else if op = 62 then some { s with head0 := decWrap n s.head0 }
  else if op = 123 then some { s with head1 := decWrap n s.head1 }
  else if op = 125 then some { s with head1 := (s.head1 + 1) % n }
  else if op = 45 then
    some { s with tape := s.tape.set (s.head0 % n) (u8sub1 (s.tape.getD (s.head0 % n) 0)) }
  else if op = 43 then
    some { s with tape := s.tape.set (s.head0 % n) (u8add1 (s.tape.getD (s.head0 % n) 0)) }
  else if op = 46 then
    some { s with tape := s.tape.set (s.head1 % n) (s.tape.getD (s.head0 % n) 0) }
  else if op = 44 then
    some { s with tape := s.tape.set (s.head0 % n) (s.tape.getD (s.head1 % n) 0) }
  else if op = 91 then
    if s.tape.getD s.head0 0 = 0 then
      match scanForward (s.tape.drop s.ip) 0 with
      | none => none
      | some offset => some { s with ip := s.ip + offset }
    else some s
  else if op = 93 then
    if s.tape.getD s.head0 0 ≠ 0 then
      match scanBackward (s.tape.take (s.ip + 1)).reverse 0 with
      | none => none
      | some offset => some { s with ip := s.ip - offset }
    else some s
  else some s

/-- One iteration of the `for _ in 0..max_instructions` loop: dispatch on the
byte at `ip`, then `ip = (ip + 1) % tape.len()`. -/
def step (s : MachState) : Option MachState :=
  (execOp (s.tape.getD s.ip 0) s).map
    (fun t => { t with ip := (t.ip + 1) % t.tape.length })

/-- Result of a run of `execute`: the returned `ProgramStatus`, the final
tape (the source mutates it through `&mut`), and the number of loop
iterations completed before returning. -/
structure ExecResult where
  status : ProgramStatus
  tape : List Nat
  steps : Nat
deriving DecidableEq, Repr

/-- The instruction loop of `execute`, with explicit state. -/
def executeAux : MachState → Nat → ExecResult
  | s, 0 => ⟨.TimedOut, s.tape, 0⟩
  | s, fuel + 1 =>
    match step s with
    | none => ⟨.UnmatchedBranch, s.tape, 0⟩
    | some t =>
      let r := executeAux t fuel
      ⟨r.status, r.tape, r.steps + 1⟩

/-- `fn execute<const N: usize>(tape, ip, max_instructions)`:
`head0` starts at `ip`, `head1` at `(ip + 16) % N`. -/
def execute (tape : List Nat) (ip maxInstructions : Nat) : ExecResult :=
  executeAux ⟨tape, ip, ip, (ip + 16) % tape.length⟩ maxInstructions

/-- `const PROGRAM_LEN: usize = 64`. -/
def PROGRAM_LEN : Nat := 64

/-- One iteration of `react`'s reaction loop, with the three random draws
`(program0, program1, start ip)` made explicit.  Builds the reaction buffer
by concatenating the two sampled programs, runs `execute` with budget
10 000, and writes the first half back to slot `program0` and then the
second half back to slot `program1`. -/
def reactOne (programs : List (List Nat)) (draw : Nat × Nat × Nat) :
    List (List Nat) × ProgramStatus :=
  let reaction := programs.getD draw.1 [] ++ programs.getD draw.2.1 []
  let r := execute reaction draw.2.2 10000
  (((programs.set draw.1 (r.tape.take PROGRAM_LEN)).set draw.2.1
      (r.tape.drop PROGRAM_LEN)),
    r.status)

/-- State accumulated by `react`: the pool and the two outcome tallies. -/
structure ReactState where
  programs : List (List Nat)
  numTimedOut : Nat
  numUnmatchedBranch : Nat
deriving DecidableEq, Repr

/-- The `for _ in 0..num_reactions` loop of `react`: one `reactOne` per
draw, sequentially, tallying the returned `ProgramStatus`. -/
def reactLoop (ps : List (List Nat)) : List (Nat × Nat × Nat) → ReactState
  | [] => ⟨ps, 0, 0⟩
  | d :: rest =>
    let o := reactOne ps d
    let r := reactLoop o.1 rest
    match o.2 with
    | .TimedOut => ⟨r.programs, r.numTimedOut + 1, r.numUnmatchedBranch⟩
    | .UnmatchedBranch => ⟨r.programs, r.numTimedOut, r.numUnmatchedBranch + 1⟩

/-- The `(i as u8, *c)` token keys of one program, in order:
`for (i, c) in program.iter().enumerate()`. -/
def tokens (program : List Nat) : List (Nat × Nat) :=
  program.enum.map (fun ic => (ic.1 % 256, ic.2))

/-- All token keys of the pool, in traversal order; the statistics pass
inserts exactly these keys into `token_counts`. -/
def tokenList (programs : List (List Nat)) : List (Nat × Nat) :=
  (programs.map tokens).flatten

/-- The count `token_counts[k]` after the statistics pass (the equality
test on keys is the decidable equality of pairs). -/
def histCount (programs : List (List Nat)) (k : Nat × Nat) : Nat :=
  @List.count _ instBEqOfDecidableEq k (tokenList programs)

/-- The distinct keys of `token_counts`; `token_counts.len()` is the length
of this list. -/
def histKeys (programs : List (List Nat)) : List (Nat × Nat) :=
  (tokenList programs).dedup

/-- `struct TuringFoamStats`. -/
structure TuringFoamStats where
  num_unique_tokens : Nat
  num_timed_out : Nat
  num_unmatched_branch : Nat
deriving DecidableEq, Repr

/-- `fn react(&mut self, num_reactions)`, with the random draws explicit:
runs the reaction loop, then the statistics pass over the final pool.
Returns the final pool together with the reported stats. -/
def react (ps : List (List Nat)) (draws : List (Nat × Nat × Nat)) :
    List (List Nat) × TuringFoamStats :=
  let r := reactLoop ps draws
  (r.programs,
    ⟨(histKeys r.programs).length, r.numTimedOut, r.numUnmatchedBranch⟩)

/-- The ten byte values recognized by `execute`'s dispatch; the `_ => {}`
arm makes every other byte a no-op. -/
def opcodes : List Nat := [60, 62, 123, 125, 45, 43, 46, 44, 91, 93]

/-- An `n`-byte buffer whose only recognized opcode is a single `[`
(byte 91) at position 0; every other byte is `0` (a no-op). -/
def loneL (n : Nat) : List Nat := 91 :: List.replicate (n - 1) 0

/-! ### Helper lemmas -/

/-- `decWrap` really is "decrement by one" on every positive cursor value
(the underflow can only occur at `0`). -/
theorem decWrap_pos (n x : Nat) (hx : 0 < x) (hxn : x < n) (hn : n ≤ USIZE) :
    decWrap n x = x - 1 := by
  have hU : 0 < USIZE := by norm_num [USIZE]
  have h1 : x + (USIZE - 1) = (x - 1) + USIZE := by omega
  rw [decWrap, h1, Nat.add_mod_right,
    Nat.mod_eq_of_lt (by omega : x - 1 < USIZE),
    Nat.mod_eq_of_lt (by omega : x - 1 < n)]

/-- The `b'['` arm of the dispatch, isolated. -/
theorem execOp_lbracket (s : MachState) :
    execOp 91 s =
      if s.tape.getD s.head0 0 = 0 then
        (match scanForward (s.tape.drop s.ip) 0 with
          | none => none
          | some offset => some { s with ip := s.ip + offset })
      else some s := rfl

/-- The `b']'` arm of the dispatch, isolated. -/
theorem execOp_rbracket (s : MachState) :
    execOp 93 s =
      if s.tape.getD s.head0 0 ≠ 0 then
        (match scanBackward (s.tape.take (s.ip + 1)).reverse 0 with
          | none => none
          | some offset => some { s with ip := s.ip - offset })
      else some s := rfl

/-- `executeAux` with fuel left: one dispatch succeeded. -/
theorem executeAux_succ_some (s t : MachState) (fuel : Nat)
    (h : step s = some t) :
    executeAux s (fuel + 1) =
      ⟨(executeAux t fuel).status, (executeAux t fuel).tape,
        (executeAux t fuel).steps + 1⟩ := by
  rw [executeAux, h]

/-- `executeAux` with fuel left: a bracket scan failed. -/
theorem executeAux_succ_none (s : MachState) (fuel : Nat)
    (h : step s = none) :
    executeAux s (fuel + 1) = ⟨.UnmatchedBranch, s.tape, 0⟩ := by
  rw [executeAux, h]

/-- A run that reports `TimedOut` completed exactly the budgeted number of
loop iterations. -/
theorem executeAux_timedOut_steps (fuel : Nat) :
    ∀ s : MachState, (executeAux s fuel).status = .TimedOut →
      (executeAux s fuel).steps = fuel := by
  induction fuel with
  | zero => intro s _; rfl
  | succ f ih =>
    intro s h
    cases hs : step s with
    | none => rw [executeAux_succ_none s f hs] at h; simp at h
    | some t =>
      rw [executeAux_succ_some s t f hs] at h ⊢
      simpa using ih t (by simpa using h)

/-- Bytes outside the ten recognized opcodes fall into the `_ => {}` arm
of the dispatch: the state is unchanged. -/
theorem execOp_notOpcode (c : Nat) (s : MachState) (h : c ∉ opcodes) :
    execOp c s = some s := by
  simp only [opcodes, List.mem_cons, List.not_mem_nil, or_false] at h
  push_neg at h
  obtain ⟨h1, h2, h3, h4, h5, h6, h7, h8, h9, h10⟩ := h
  unfold execOp
  simp [h1, h2, h3, h4, h5, h6, h7, h8, h9, h10]

/-- A step on an unrecognized byte only advances `ip`. -/
theorem step_noop (s : MachState) (h : s.tape.getD s.ip 0 ∉ opcodes) :
    step s = some { s with ip := (s.ip + 1) % s.tape.length } := by
  unfold step
  rw [execOp_notOpcode _ _ h]
  rfl

/-- A tape all of whose bytes are unrecognized is inert: the run times out
after exactly the budgeted number of steps with the tape unchanged. -/
theorem executeAux_noop_tape (fuel : Nat) :
    ∀ ip h0 h1 : Nat, ∀ tape : List Nat,
      (∀ c ∈ tape, c ∉ opcodes) → ip < tape.length →
      executeAux ⟨tape, ip, h0, h1⟩ fuel = ⟨.TimedOut, tape, fuel⟩ := by
  induction fuel with
  | zero => intros; rfl
  | succ f ih =>
    intro ip h0 h1 tape hno hip
    have hmem : tape.getD ip 0 ∈ tape := by
      rw [List.getD_eq_getElem tape 0 hip]
      exact List.getElem_mem hip
    have hs : step ⟨tape, ip, h0, h1⟩ =
        some ⟨tape, (ip + 1) % tape.length, h0, h1⟩ :=
      step_noop _ (hno _ hmem)
    rw [executeAux_succ_some _ _ f hs,
      ih ((ip + 1) % tape.length) h0 h1 tape hno (Nat.mod_lt _ (by omega))]

/-- `getD` on an all-zero list (with default 0) is always 0. -/
theorem replicate_zero_getD (m i : Nat) :
    (List.replicate m (0 : Nat)).getD i 0 = 0 := by
  rcases Nat.lt_or_ge i m with h | h
  · rw [List.getD_eq_getElem _ _ (by simpa using h)]
    simp
  · exact List.getD_eq_default _ _ (by simpa using h)

/-- `loneL n` has length `n` (for `0 < n`). -/
theorem loneL_length (n : Nat) (hn : 0 < n) : (loneL n).length = n := by
  simp only [loneL, List.length_cons, List.length_replicate]
  omega

/-- Every position of `loneL n` other than 0 holds a zero byte. -/
theorem loneL_getD_pos (n i : Nat) (hi : 0 < i) : (loneL n).getD i 0 = 0 := by
  cases i with
  | zero => omega
  | succ j => exact replicate_zero_getD (n - 1) j

/-- The byte at position 0 of `loneL n` is the `[`. -/
theorem loneL_getD_zero (n : Nat) : (loneL n).getD 0 0 = 91 := rfl

/-- The forward scan never closes over no-op bytes from a nonzero depth. -/
theorem scanForward_replicate_zero (m : Nat) :
    ∀ d : Int, d ≠ 0 → scanForward (List.replicate m 0) d = none := by
  induction m with
  | zero => intro d _; rfl
  | succ k ih =>
    intro d hd
    rw [List.replicate_succ, scanForward]
    simp [hd, ih d hd]

/-- The forward scan launched on `loneL n` never finds a closing `]`:
the leading `[` raises the depth to 1 and no later byte lowers it. -/
theorem scanForward_loneL (n : Nat) : scanForward (loneL n) 0 = none := by
  rw [loneL, scanForward]
  norm_num [scanForward_replicate_zero]

/-- The backward scan never closes when the depth is positive and no `[`
occurs in the remaining bytes. -/
theorem scanBackward_no_lbracket (l : List Nat) :
    ∀ d : Int, 0 < d → (∀ c ∈ l, c ≠ 91) → scanBackward l d = none := by
  induction l with
  | nil => intros; rfl
  | cons c rest ih =>
    intro d hd hno
    have hc : c ≠ 91 := hno c (by simp)
    rw [scanBackward]
    by_cases h93 : c = 93
    · simp only [h93]
      norm_num
      rw [if_neg (by omega), ih (d + 1) (by omega) (fun x hx => hno x (by simp [hx]))]
      rfl
    · simp only [if_neg h93, if_neg hc]
      rw [if_neg (by omega), ih d hd (fun x hx => hno x (by simp [hx]))]
      rfl

/-- The `[` arm when the byte at `head0` is nonzero: no branch taken. -/
theorem execOp_lbracket_skip (s : MachState)
    (h : s.tape.getD s.head0 0 ≠ 0) : execOp 91 s = some s := by
  rw [execOp_lbracket, if_neg h]

/-- The `[` arm when the byte at `head0` is zero and the forward scan
fails: the source returns `UnmatchedBranch`. -/
theorem execOp_lbracket_none (s : MachState)
    (h0 : s.tape.getD s.head0 0 = 0)
    (hscan : scanForward (s.tape.drop s.ip) 0 = none) : execOp 91 s = none := by
  rw [execOp_lbracket, if_pos h0, hscan]

/-- The `]` arm when the byte at `head0` is nonzero and the backward scan
fails: the source returns `UnmatchedBranch`. -/
theorem execOp_rbracket_none (s : MachState)
    (h0 : s.tape.getD s.head0 0 ≠ 0)
    (hscan : scanBackward (s.tape.take (s.ip + 1)).reverse 0 = none) :
    execOp 93 s = none := by
  rw [execOp_rbracket, if_pos h0, hscan]

/-- Reaching the `[` of `loneL n` with `head0` on a zero byte fails the
forward scan at once. -/
theorem executeAux_loneL_fire (n hd hx f : Nat) (hd0 : 0 < hd)
    (hdn : hd < n) :
    executeAux ⟨loneL n, 0, hd, hx⟩ (f + 1) =
      ⟨.UnmatchedBranch, loneL n, 0⟩ := by
  have hstep : step ⟨loneL n, 0, hd, hx⟩ = none := by
    unfold step
    rw [loneL_getD_zero,
      execOp_lbracket_none _ (loneL_getD_pos n hd hd0)
        (by rw [List.drop_zero]; exact scanForward_loneL n)]
    rfl
  exact executeAux_succ_none _ f hstep

/-- Marching across the no-op tail of `loneL n` from a nonzero `ip` with
`head0` fixed on a zero byte: the run fails with `UnmatchedBranch` as soon
as `ip` wraps around to the `[`, after `n - ip` completed steps. -/
theorem executeAux_loneL_march (n : Nat) (fuel : Nat) :
    ∀ ip hd hx : Nat, 0 < ip → ip < n → 0 < hd → hd < n → n - ip < fuel →
      executeAux ⟨loneL n, ip, hd, hx⟩ fuel =
        ⟨.UnmatchedBranch, loneL n, n - ip⟩ := by
  induction fuel with
  | zero => intro ip hd hx h1 h2 h3 h4 h5; omega
  | succ f ih =>
    intro ip hd hx h1 h2 h3 h4 h5
    have hstep : step ⟨loneL n, ip, hd, hx⟩ =
        some ⟨loneL n, (ip + 1) % n, hd, hx⟩ := by
      have hnoop : (loneL n).getD ip 0 ∉ opcodes := by
        rw [loneL_getD_pos n ip h1]; decide
      rw [step_noop _ hnoop]
      simp [loneL_length n (by omega)]
    rw [executeAux_succ_some _ _ f hstep]
    by_cases hip : ip + 1 < n
    · rw [Nat.mod_eq_of_lt hip,
        ih (ip + 1) hd hx (by omega) hip h3 h4 (by omega)]
      have : n - (ip + 1) + 1 = n - ip := by omega
      simp [this]
    · have hn : (ip + 1) % n = 0 := by
        have : ip + 1 = n := by omega
        simp [this]
      rw [hn]
      obtain ⟨f', rfl⟩ : ∃ f', f = f' + 1 := ⟨f - 1, by omega⟩
      rw [executeAux_loneL_fire n hd hx f' h3 h4]
      have : n - ip = 1 := by omega
      simp [this]

/-- With `head0` stuck on the `[` itself (a nonzero byte), the branch of
`[` is never taken and the run times out, whatever the budget. -/
theorem executeAux_loneL_start0 (n : Nat) (fuel : Nat) :
    ∀ ip hx : Nat, ip < n →
      executeAux ⟨loneL n, ip, 0, hx⟩ fuel = ⟨.TimedOut, loneL n, fuel⟩ := by
  induction fuel with
  | zero => intros; rfl
  | succ f ih =>
    intro ip hx hip
    have hstep : step ⟨loneL n, ip, 0, hx⟩ =
        some ⟨loneL n, (ip + 1) % n, 0, hx⟩ := by
      by_cases h0 : ip = 0
      · subst h0
        unfold step
        rw [loneL_getD_zero,
          execOp_lbracket_skip _ (by simp [loneL])]
        simp [loneL_length n (by omega)]
      · have hnoop : (loneL n).getD ip 0 ∉ opcodes := by
          rw [loneL_getD_pos n ip (by omega)]; decide
        rw [step_noop _ hnoop]
        simp [loneL_length n (by omega)]
    rw [executeAux_succ_some _ _ f hstep,
      ih ((ip + 1) % n) hx (Nat.mod_lt _ (by omega))]

/-- The backward scan started on a `]` continues at depth 1. -/
theorem scanBackward_cons93 (l : List Nat) :
    scanBackward (93 :: l) 0 = (scanBackward l 1).map (fun o => o + 1) := by
  rw [scanBackward]
  norm_num

/-- A `]` at the start position (`head0 = ip` reads the nonzero byte 93)
with no `[` at or before it fails its backward scan on the very first
step: the run returns `UnmatchedBranch` with the tape unchanged after 0
completed steps, whatever the budget. -/
theorem execute_lone_rbracket (tape : List Nat) (ip f : Nat)
    (hip : ip < tape.length) (hop : tape.getD ip 0 = 93)
    (hno : ∀ c ∈ tape.take ip, c ≠ 91) :
    execute tape ip (f + 1) = ⟨.UnmatchedBranch, tape, 0⟩ := by
  have h93 : tape[ip] = 93 := (List.getD_eq_getElem tape 0 hip).symm.trans hop
  have htake : tape.take (ip + 1) = tape.take ip ++ [93] := by
    rw [← List.take_concat_get' tape ip hip, h93]
  have hscan : scanBackward (tape.take (ip + 1)).reverse 0 = none := by
    rw [htake, List.reverse_append, List.reverse_singleton,
      List.singleton_append, scanBackward_cons93,
      scanBackward_no_lbracket _ 1 one_pos
        (fun c hc => hno c (List.mem_reverse.mp hc))]
    rfl
  have hstep : step ⟨tape, ip, ip, (ip + 16) % tape.length⟩ = none := by
    unfold step
    rw [hop, execOp_rbracket_none _ (by rw [hop]; norm_num) hscan]
    rfl
  exact executeAux_succ_none _ f hstep

/-- `execOp` never changes the tape length: every write is a `List.set`. -/
theorem execOp_tape_length (op : Nat) (s t : MachState)
    (h : execOp op s = some t) : t.tape.length = s.tape.length := by
  simp only [execOp] at h
  by_cases h60 : op = 60
  · rw [if_pos h60] at h; injection h with h; subst h; simp
  rw [if_neg h60] at h
  by_cases h62 : op = 62
  · rw [if_pos h62] at h; injection h with h; subst h; simp
  rw [if_neg h62] at h
  by_cases h123 : op = 123
  · rw [if_pos h123] at h; injection h with h; subst h; simp
  rw [if_neg h123] at h
  by_cases h125 : op = 125
  · rw [if_pos h125] at h; injection h with h; subst h; simp
  rw [if_neg h125] at h
  by_cases h45 : op = 45
  · rw [if_pos h45] at h; injection h with h; subst h; simp
  rw [if_neg h45] at h
  by_cases h43 : op = 43
  · rw [if_pos h43] at h; injection h with h; subst h; simp
  rw [if_neg h43] at h
  by_cases h46 : op = 46
  · rw [if_pos h46] at h; injection h with h; subst h; simp
  rw [if_neg h46] at h
  by_cases h44 : op = 44
  · rw [if_pos h44] at h; injection h with h; subst h; simp
  rw [if_neg h44] at h
  by_cases h91 : op = 91
  · rw [if_pos h91] at h
    by_cases hz : s.tape.getD s.head0 0 = 0
    · rw [if_pos hz] at h
      cases hscan : scanForward (s.tape.drop s.ip) 0 with
      | none => rw [hscan] at h; exact Option.noConfusion h
      | some o =>
        rw [hscan] at h
        injection h with h; subst h; simp
    · rw [if_neg hz] at h; injection h with h; subst h; rfl
  rw [if_neg h91] at h
  by_cases h93 : op = 93
  · rw [if_pos h93] at h
    by_cases hz : s.tape.getD s.head0 0 ≠ 0
    · rw [if_pos hz] at h
      cases hscan : scanBackward (s.tape.take (s.ip + 1)).reverse 0 with
      | none => rw [hscan] at h; exact Option.noConfusion h
      | some o =>
        rw [hscan] at h
        injection h with h; subst h; simp
    · rw [if_neg hz] at h; injection h with h; subst h; rfl
  rw [if_neg h93] at h
  injection h with h; subst h; rfl

/-- `step` never changes the tape length. -/
theorem step_tape_length (s t : MachState) (h : step s = some t) :
    t.tape.length = s.tape.length := by
  unfold step at h
  cases he : execOp (s.tape.getD s.ip 0) s with
  | none => rw [he] at h; simp at h
  | some u =>
    rw [he] at h
    simp only [Option.map_some'] at h
    cases h
    exact execOp_tape_length _ s u he

/-- The interpreter never changes the tape length. -/
theorem executeAux_tape_length (fuel : Nat) :
    ∀ s : MachState, (executeAux s fuel).tape.length = s.tape.length := by
  induction fuel with
  | zero => intro s; rfl
  | succ f ih =>
    intro s
    cases hs : step s with
    | none => rw [executeAux_succ_none s f hs]
    | some t =>
      rw [executeAux_succ_some s t f hs]
      exact (ih t).trans (step_tape_length s t hs)

/-- `execute` never changes the tape length. -/
theorem execute_tape_length (tape : List Nat) (ip fuel : Nat) :
    (execute tape ip fuel).tape.length = tape.length :=
  executeAux_tape_length fuel _

/-- One reaction never changes the number of pool slots. -/
theorem reactOne_pool_length (ps : List (List Nat)) (d : Nat × Nat × Nat) :
    (reactOne ps d).1.length = ps.length := by
  simp [reactOne]

/-- The reaction buffer of a valid draw has length `2 * PROGRAM_LEN`, and
so does the tape `execute` returns for it. -/
theorem reactOne_tape_length (ps : List (List Nat)) (d : Nat × Nat × Nat)
    (hlen : ∀ p ∈ ps, p.length = PROGRAM_LEN)
    (h1 : d.1 < ps.length) (h2 : d.2.1 < ps.length) :
    (execute (ps.getD d.1 [] ++ ps.getD d.2.1 []) d.2.2 10000).tape.length =
      2 * PROGRAM_LEN := by
  rw [execute_tape_length, List.length_append]
  have e1 : ps.getD d.1 [] ∈ ps := by
    rw [List.getD_eq_getElem _ _ h1]; exact List.getElem_mem h1
  have e2 : ps.getD d.2.1 [] ∈ ps := by
    rw [List.getD_eq_getElem _ _ h2]; exact List.getElem_mem h2
  rw [hlen _ e1, hlen _ e2]
  omega

/-- One reaction with a valid draw keeps every program at `PROGRAM_LEN`
bytes. -/
theorem reactOne_program_length (ps : List (List Nat)) (d : Nat × Nat × Nat)
    (hlen : ∀ p ∈ ps, p.length = PROGRAM_LEN)
    (h1 : d.1 < ps.length) (h2 : d.2.1 < ps.length) :
    ∀ q ∈ (reactOne ps d).1, q.length = PROGRAM_LEN := by
  intro q hq
  have hx := reactOne_tape_length ps d hlen h1 h2
  rcases List.mem_or_eq_of_mem_set hq with hq1 | rfl
  · rcases List.mem_or_eq_of_mem_set hq1 with hq2 | rfl
    · exact hlen q hq2
    · rw [List.length_take, hx]; omega
  · rw [List.length_drop, hx]; omega

/-- The reaction loop preserves the pool slot count and every program
length, for any sequence of valid draws. -/
theorem reactLoop_pool_invariant (draws : List (Nat × Nat × Nat)) :
    ∀ ps : List (List Nat), (∀ p ∈ ps, p.length = PROGRAM_LEN) →
      (∀ d ∈ draws, d.1 < ps.length ∧ d.2.1 < ps.length) →
      (reactLoop ps draws).programs.length = ps.length ∧
      ∀ q ∈ (reactLoop ps draws).programs, q.length = PROGRAM_LEN := by
  induction draws with
  | nil => intro ps h _; exact ⟨rfl, h⟩
  | cons d rest ih =>
    intro ps hlen hd
    have hob := reactOne_pool_length ps d
    have hop := reactOne_program_length ps d hlen (hd d (by simp)).1
      (hd d (by simp)).2
    have ihr := ih (reactOne ps d).1 hop
      (fun e he => by rw [hob]; exact hd e (by simp [he]))
    rw [reactLoop]
    cases (reactOne ps d).2 <;> exact ⟨ihr.1.trans hob, ihr.2⟩

/-! ### Statistics lemmas -/

/-- One token per byte of a program. -/
theorem tokens_length (p : List Nat) : (tokens p).length = p.length := by
  simp [tokens]

/-- Unfolding `tokenList` over the head program. -/
theorem tokenList_cons (p : List Nat) (rest : List (List Nat)) :
    tokenList (p :: rest) = tokens p ++ tokenList rest := by
  simp [tokenList]

/-- A pool of `PROGRAM_LEN`-byte programs contributes exactly
`pool size * PROGRAM_LEN` tokens. -/
theorem tokenList_length (ps : List (List Nat))
    (hlen : ∀ p ∈ ps, p.length = PROGRAM_LEN) :
    (tokenList ps).length = ps.length * PROGRAM_LEN := by
  induction ps with
  | nil => rfl
  | cons p rest ih =>
    rw [tokenList_cons, List.length_append, tokens_length, hlen p (by simp),
      ih (fun q hq => hlen q (by simp [hq])), List.length_cons, Nat.succ_mul]
    omega

/-- Every token key of a well-formed pool has its position below
`PROGRAM_LEN` and its byte value below 256. -/
theorem tokenList_key_bound (ps : List (List Nat))
    (hlen : ∀ p ∈ ps, p.length = PROGRAM_LEN)
    (hbyte : ∀ p ∈ ps, ∀ c ∈ p, c < 256) :
    ∀ k ∈ tokenList ps, k.1 < PROGRAM_LEN ∧ k.2 < 256 := by
  intro k hk
  rw [tokenList, List.mem_flatten] at hk
  obtain ⟨l, hl, hkl⟩ := hk
  rw [List.mem_map] at hl
  obtain ⟨p, hp, rfl⟩ := hl
  rw [tokens, List.mem_map] at hkl
  obtain ⟨ic, hic, rfl⟩ := hkl
  have h1 : ic.1 < p.length := List.fst_lt_of_mem_enum hic
  have h2 : ic.2 ∈ p := List.snd_mem_of_mem_enum hic
  rw [hlen p hp] at h1
  refine ⟨?_, hbyte p hp ic.2 h2⟩
  have hm : ic.1 % 256 = ic.1 :=
    Nat.mod_eq_of_lt (by norm_num [PROGRAM_LEN] at h1 ⊢; omega)
  show ic.1 % 256 < PROGRAM_LEN
  rw [hm]
  exact h1

/-- At most `256 * PROGRAM_LEN` distinct token keys exist for a
well-formed pool. -/
theorem histKeys_card_bound (ps : List (List Nat))
    (hlen : ∀ p ∈ ps, p.length = PROGRAM_LEN)
    (hbyte : ∀ p ∈ ps, ∀ c ∈ p, c < 256) :
    (histKeys ps).length ≤ 256 * PROGRAM_LEN := by
  classical
  have hnd : (histKeys ps).Nodup := List.nodup_dedup _
  have hsub : (histKeys ps).toFinset ⊆
      Finset.range PROGRAM_LEN ×ˢ Finset.range 256 := by
    intro k hk
    have hk1 : k ∈ tokenList ps :=
      List.mem_dedup.mp (List.mem_toFinset.mp hk)
    have hb := tokenList_key_bound ps hlen hbyte k hk1
    rw [Finset.mem_product, Finset.mem_range, Finset.mem_range]
    exact hb
  have hcard := Finset.card_le_card hsub
  rw [List.toFinset_card_of_nodup hnd, Finset.card_product,
    Finset.card_range, Finset.card_range, Nat.mul_comm] at hcard
  exact hcard

/-! ### Claim theorems -/

/-- C1 counterexample: in a buffer of length 3 with `head0 = 0`, the `>`
instruction (byte 62) leaves `head0` at `0` — it does not move it "back by
one position circularly", which would be position `N - 1 = 2`.  (The usize
subtraction wraps modulo `2 ^ 64`, and `(2 ^ 64 - 1) % 3 = 0`.) -/
theorem c1_counterexample :
    execOp 62 ⟨[0, 0, 0], 0, 0, 16⟩ = some ⟨[0, 0, 0], 0, 0, 16⟩ ∧
    execOp 62 ⟨[0, 0, 0], 0, 0, 16⟩ ≠ some ⟨[0, 0, 0], 0, 2, 16⟩ := by
  exact ⟨by decide, by decide⟩

/-- C1 (amended): the `>` instruction has exactly the same effect as `<`:
both set `head0` to `decWrap N head0 = ((head0 - 1) mod 2 ^ 64) mod N`,
leaving the tape, `ip` and `head1` unchanged; this is a circular
move back by one (`head0 - 1`) whenever `head0 > 0`, while at `head0 = 0`
the result is `(2 ^ 64 - 1) mod N` (which is `N - 1` only when `N` divides
`2 ^ 64`, as with the program's actual buffer length 128). -/
theorem gt_same_effect_as_lt :
    (∀ s : MachState, execOp 62 s = execOp 60 s) ∧
    (∀ s : MachState,
      execOp 60 s = some { s with head0 := decWrap s.tape.length s.head0 }) ∧
    (∀ n x : Nat, 0 < x → x < n → n ≤ USIZE → decWrap n x = x - 1) ∧
    decWrap 128 0 = 128 - 1 := by
  refine ⟨fun s => ?_, fun s => ?_,
    fun n x hx hxn hn => decWrap_pos n x hx hxn hn, by decide⟩
  · unfold execOp; norm_num
  · unfold execOp; norm_num

/-- C1 witness: the amended claim at `n = 3`, `head0 = 2`. -/
theorem gt_same_effect_as_lt_witness :
    (0 : Nat) < 2 ∧ 2 < 3 ∧ 3 ≤ USIZE ∧ decWrap 3 2 = 2 - 1 :=
  ⟨by decide, by decide, by decide,
    gt_same_effect_as_lt.2.2.1 3 2 (by decide) (by decide) (by decide)⟩

/-- C2: the cursor decrement does underflow at position 0.  In a length-3
buffer, `(0 - 1) % 3` under the wrapping usize semantics is
`(2 ^ 64 - 1) % 3 = 0`, not `N - 1 = 2`; consequently running
`execute` on `[b'<', b'-', 0]` from `ip = 0` for two steps decrements the
byte at position 0 (yielding `[59, 45, 0]`), whereas a wrap of `head0` to
the last valid position would decrement position 2 (yielding
`[60, 45, 255]`).  (A debug build panics on the usize underflow instead.) -/
theorem cursor_underflow_bug :
    decWrap 3 0 = 0 ∧ decWrap 3 0 ≠ 3 - 1 ∧
    (execute [60, 45, 0] 0 2).tape = [59, 45, 0] ∧
    (execute [60, 45, 0] 0 2).tape ≠ [60, 45, 255] := by
  exact ⟨by decide, by decide, by decide, by decide⟩

/-- C3: `-` (byte 45) and `+` (byte 43) rewrite the cell at
`head0 % N` with the wrapping 8-bit decrement/increment: on byte values
(`v < 256`) the decrement sends `0` to `255` and otherwise subtracts one,
the increment sends `255` to `0` and otherwise adds one, and the results
always stay below 256 (no overflow or underflow failure). -/
theorem cell_arith_wraps :
    (∀ s : MachState,
      execOp 45 s = some { s with
        tape := s.tape.set (s.head0 % s.tape.length)
          (u8sub1 (s.tape.getD (s.head0 % s.tape.length) 0)) }) ∧
    (∀ s : MachState,
      execOp 43 s = some { s with
        tape := s.tape.set (s.head0 % s.tape.length)
          (u8add1 (s.tape.getD (s.head0 % s.tape.length) 0)) }) ∧
    (∀ v : Nat, v < 256 → u8sub1 v = if v = 0 then 255 else v - 1) ∧
    (∀ v : Nat, v < 256 → u8add1 v = if v = 255 then 0 else v + 1) ∧
    u8sub1 0 = 255 ∧ u8add1 255 = 0 ∧
    (∀ v : Nat, u8sub1 v < 256 ∧ u8add1 v < 256) := by
  refine ⟨fun s => ?_, fun s => ?_, fun v hv => ?_, fun v hv => ?_,
    by decide, by decide, fun v => ⟨?_, ?_⟩⟩
  · unfold execOp; norm_num
  · unfold execOp; norm_num
  · unfold u8sub1; split <;> omega
  · unfold u8add1; split <;> omega
  · unfold u8sub1; omega
  · unfold u8add1; omega

/-- C3 witness: the wrap at both boundary values. -/
theorem cell_arith_wraps_witness :
    (0 : Nat) < 256 ∧ u8sub1 0 = (if (0 : Nat) = 0 then 255 else 0 - 1) ∧
    (255 : Nat) < 256 ∧
    u8add1 255 = (if (255 : Nat) = 255 then 0 else 255 + 1) :=
  ⟨by decide, cell_arith_wraps.2.2.1 0 (by decide), by decide,
    cell_arith_wraps.2.2.2.1 255 (by decide)⟩

/-- C6: the interpreter is deterministic — the result is a function of the
buffer, start position and step budget alone. -/
theorem execute_deterministic (t t' : List Nat) (i i' f f' : Nat)
    (ht : t = t') (hi : i = i') (hf : f = f') :
    execute t i f = execute t' i' f' := by
  subst ht; subst hi; subst hf; rfl

/-- C6 witness: determinism at a concrete input. -/
theorem execute_deterministic_witness :
    ([0] : List Nat) = [0] ∧ (0 : Nat) = 0 ∧ (1 : Nat) = 1 ∧
    execute [0] 0 1 = execute [0] 0 1 :=
  ⟨rfl, rfl, rfl, execute_deterministic [0] [0] 0 0 1 1 rfl rfl rfl⟩

/-- C5: for every buffer, valid start position and step budget the
interpreter terminates with `TimedOut` or `UnmatchedBranch` (the result
type has no other value, and `execute` is total), and a `TimedOut` run
completed exactly the budgeted number of steps — the machine never halts
voluntarily. -/
theorem execute_two_outcomes_only (tape : List Nat) (ip fuel : Nat)
    (h : ip < tape.length) :
    ((execute tape ip fuel).status = .TimedOut ∨
      (execute tape ip fuel).status = .UnmatchedBranch) ∧
    ((execute tape ip fuel).status = .TimedOut →
      (execute tape ip fuel).steps = fuel) := by
  refine ⟨?_, fun ht => executeAux_timedOut_steps fuel _ ht⟩
  cases hs : (execute tape ip fuel).status with
  | TimedOut => exact Or.inl rfl
  | UnmatchedBranch => exact Or.inr rfl

/-- C5 witness: a concrete run that times out after its full budget. -/
theorem execute_two_outcomes_only_witness :
    (0 : Nat) < [(0 : Nat)].length ∧
    ((execute [0] 0 2).status = .TimedOut ∨
      (execute [0] 0 2).status = .UnmatchedBranch) ∧
    (execute [0] 0 2).steps = 2 :=
  ⟨by decide, (execute_two_outcomes_only [0] 0 2 (by decide)).1,
    (execute_two_outcomes_only [0] 0 2 (by decide)).2 (by decide)⟩

/-- C7: a zero budget returns `TimedOut` with the buffer byte-for-byte
unchanged, and a buffer consisting entirely of no-op bytes runs for
exactly `k` steps, returns `TimedOut`, and leaves the buffer unchanged. -/
theorem zero_budget_and_noop_buffer :
    (∀ (tape : List Nat) (ip : Nat), 0 < tape.length →
      execute tape ip 0 = ⟨.TimedOut, tape, 0⟩) ∧
    (∀ (tape : List Nat) (ip k : Nat), (∀ c ∈ tape, c ∉ opcodes) →
      ip < tape.length → execute tape ip k = ⟨.TimedOut, tape, k⟩) :=
  ⟨fun _ _ _ => rfl,
    fun tape ip k hno hip =>
      executeAux_noop_tape k ip ip ((ip + 16) % tape.length) tape hno hip⟩

/-- C7 witness: the all-zero buffer of length 4, with budget 0 and with
budget 3. -/
theorem zero_budget_and_noop_buffer_witness :
    (0 : Nat) < [(0 : Nat), 0, 0, 0].length ∧
    (∀ c ∈ [(0 : Nat), 0, 0, 0], c ∉ opcodes) ∧ (2 : Nat) < 4 ∧
    execute [0, 0, 0, 0] 1 0 = ⟨.TimedOut, [0, 0, 0, 0], 0⟩ ∧
    execute [0, 0, 0, 0] 2 3 = ⟨.TimedOut, [0, 0, 0, 0], 3⟩ :=
  ⟨by decide, by decide, by decide,
    zero_budget_and_noop_buffer.1 [0, 0, 0, 0] 1 (by decide),
    zero_budget_and_noop_buffer.2 [0, 0, 0, 0] 2 3 (by decide) (by decide)⟩

/-- C4 counterexample: with the lone `[` at position 0 of a length-4
otherwise-zero buffer, the interpreter does NOT return `UnmatchedBranch`
on the first step.  Started at position 1, `head0 = 1` addresses a zero
byte, but the first step executes the no-op at `ip = 1`, so a budget-1 run
times out; started at position 0 (the `[` itself), `head0 = 0` reads the
`[` byte 91 ≠ 0, the zero-test fails, no scan is attempted, and the run
times out as well. -/
theorem c4_counterexample :
    execute (loneL 4) 1 1 = ⟨.TimedOut, loneL 4, 1⟩ ∧
    execute (loneL 4) 0 1 = ⟨.TimedOut, loneL 4, 1⟩ :=
  ⟨by decide, by decide⟩

/-- C4 (amended): (a) a buffer whose only recognized opcode is a lone `[`
at position 0, started at a position `0 < p < n` (so `head0` addresses a
zero byte), returns `UnmatchedBranch` with the buffer unchanged — but only
at step `n - p + 1`, once `ip` has wrapped around to the `[`, and hence
only with budget at least `n - p + 1`; (b) started at the `[` itself the
byte at `head0` is the `[` (91 ≠ 0), the branch is never taken and the run
times out; (c) a lone `]` at the start position (the byte at `head0` is
then 93, nonzero) with no `[` at or before it returns `UnmatchedBranch`
on the first step, for every budget ≥ 1. -/
theorem lone_bracket_unmatched :
    (∀ n p fuel : Nat, 0 < p → p < n → n - p < fuel →
      execute (loneL n) p fuel = ⟨.UnmatchedBranch, loneL n, n - p⟩) ∧
    (∀ n fuel : Nat, 0 < n →
      execute (loneL n) 0 fuel = ⟨.TimedOut, loneL n, fuel⟩) ∧
    (∀ (tape : List Nat) (ip f : Nat), ip < tape.length →
      tape.getD ip 0 = 93 → (∀ c ∈ tape.take ip, c ≠ 91) →
      execute tape ip (f + 1) = ⟨.UnmatchedBranch, tape, 0⟩) := by
  refine ⟨fun n p fuel h1 h2 h3 => ?_, fun n fuel hn => ?_,
    fun tape ip f hip hop hno => execute_lone_rbracket tape ip f hip hop hno⟩
  · exact executeAux_loneL_march n fuel p p _ h1 h2 h1 h2 h3
  · exact executeAux_loneL_start0 n fuel 0 _ hn

/-- C4 witness: the three amended behaviors at concrete inputs. -/
theorem lone_bracket_unmatched_witness :
    (0 : Nat) < 1 ∧ (1 : Nat) < 3 ∧ 3 - 1 < 3 ∧
    execute (loneL 3) 1 3 = ⟨.UnmatchedBranch, loneL 3, 3 - 1⟩ ∧
    (0 : Nat) < 3 ∧ execute (loneL 3) 0 5 = ⟨.TimedOut, loneL 3, 5⟩ ∧
    (0 : Nat) < [(93 : Nat), 0].length ∧ [(93 : Nat), 0].getD 0 0 = 93 ∧
    (∀ c ∈ [(93 : Nat), 0].take 0, c ≠ 91) ∧
    execute [93, 0] 0 (0 + 1) = ⟨.UnmatchedBranch, [93, 0], 0⟩ :=
  ⟨by decide, by decide, by decide,
    lone_bracket_unmatched.1 3 1 3 (by decide) (by decide) (by decide),
    by decide,
    lone_bracket_unmatched.2.1 3 5 (by decide),
    by decide, by decide, by decide,
    lone_bracket_unmatched.2.2 [93, 0] 0 0 (by decide) (by decide) (by decide)⟩

/-- C8: after every statistics pass over a well-formed pool (every program
`PROGRAM_LEN` bytes, every byte below 256), the histogram counts sum to
`pool size * PROGRAM_LEN` exactly, and the reported number of distinct
`(position, byte)` keys is at most
`min (pool size * PROGRAM_LEN) (256 * PROGRAM_LEN)`; the
`num_unique_tokens` field `react` reports is precisely the key count of
the statistics pass over its final pool. -/
theorem histogram_totals (ps : List (List Nat))
    (hlen : ∀ p ∈ ps, p.length = PROGRAM_LEN)
    (hbyte : ∀ p ∈ ps, ∀ c ∈ p, c < 256) :
    ((histKeys ps).map fun k => histCount ps k).sum =
      ps.length * PROGRAM_LEN ∧
    (histKeys ps).length ≤ min (ps.length * PROGRAM_LEN) (256 * PROGRAM_LEN) ∧
    ∀ draws : List (Nat × Nat × Nat),
      (react ps draws).2.num_unique_tokens =
        (histKeys (react ps draws).1).length := by
  refine ⟨?_, le_min ?_ ?_, fun draws => rfl⟩
  · unfold histKeys histCount
    rw [List.sum_map_count_dedup_eq_length, tokenList_length ps hlen]
  · calc (histKeys ps).length ≤ (tokenList ps).length :=
          (List.dedup_sublist _).length_le
      _ = ps.length * PROGRAM_LEN := tokenList_length ps hlen
  · exact histKeys_card_bound ps hlen hbyte

/-- C8 witness: a one-program all-zero pool. -/
theorem histogram_totals_witness :
    (∀ p ∈ [List.replicate 64 (0 : Nat)], p.length = PROGRAM_LEN) ∧
    (∀ p ∈ [List.replicate 64 (0 : Nat)], ∀ c ∈ p, c < 256) ∧
    ((histKeys [List.replicate 64 (0 : Nat)]).map
        fun k => histCount [List.replicate 64 (0 : Nat)] k).sum =
      [List.replicate 64 (0 : Nat)].length * PROGRAM_LEN ∧
    (histKeys [List.replicate 64 (0 : Nat)]).length ≤
      min ([List.replicate 64 (0 : Nat)].length * PROGRAM_LEN)
        (256 * PROGRAM_LEN) :=
  ⟨by decide, by decide,
    (histogram_totals [List.replicate 64 0] (by decide) (by decide)).1,
    (histogram_totals [List.replicate 64 0] (by decide) (by decide)).2.1⟩

/-- C9: for every batch of valid draws, `react` preserves the number of
pool slots and keeps every program at exactly `PROGRAM_LEN` bytes. -/
theorem react_preserves_shape (ps : List (List Nat))
    (draws : List (Nat × Nat × Nat))
    (hlen : ∀ p ∈ ps, p.length = PROGRAM_LEN)
    (hdr : ∀ d ∈ draws, d.1 < ps.length ∧ d.2.1 < ps.length) :
    (react ps draws).1.length = ps.length ∧
    ∀ q ∈ (react ps draws).1, q.length = PROGRAM_LEN :=
  reactLoop_pool_invariant draws ps hlen hdr

/-- C9 witness: a two-program pool and a single reaction. -/
theorem react_preserves_shape_witness :
    (∀ p ∈ [List.replicate 64 (0 : Nat), List.replicate 64 0],
      p.length = PROGRAM_LEN) ∧
    (∀ d ∈ [((0 : Nat), (1 : Nat), (0 : Nat))],
      d.1 < [List.replicate 64 (0 : Nat), List.replicate 64 0].length ∧
      d.2.1 < [List.replicate 64 (0 : Nat), List.replicate 64 0].length) ∧
    (react [List.replicate 64 (0 : Nat), List.replicate 64 0]
        [((0 : Nat), (1 : Nat), (0 : Nat))]).1.length =
      [List.replicate 64 (0 : Nat), List.replicate 64 0].length ∧
    ∀ q ∈ (react [List.replicate 64 (0 : Nat), List.replicate 64 0]
        [((0 : Nat), (1 : Nat), (0 : Nat))]).1, q.length = PROGRAM_LEN :=
  ⟨by decide, by decide,
    (react_preserves_shape [List.replicate 64 0, List.replicate 64 0]
      [(0, 1, 0)] (by decide) (by decide)).1,
    (react_preserves_shape [List.replicate 64 0, List.replicate 64 0]
      [(0, 1, 0)] (by decide) (by decide)).2⟩

/-- C10: when both sampled indices are the same slot `i`, the write-back
of the second half overwrites the just-written first half: after the
reaction, slot `i` holds exactly the second half (`drop PROGRAM_LEN`) of
the mutated reaction buffer, and the first half is discarded. -/
theorem self_reaction_keeps_second_half (ps : List (List Nat)) (i ip : Nat)
    (hi : i < ps.length) :
    (reactOne ps (i, i, ip)).1.getD i [] =
      (execute (ps.getD i [] ++ ps.getD i []) ip 10000).tape.drop
        PROGRAM_LEN := by
  show ((ps.set i
      ((execute (ps.getD i [] ++ ps.getD i []) ip 10000).tape.take
        PROGRAM_LEN)).set i
      ((execute (ps.getD i [] ++ ps.getD i []) ip 10000).tape.drop
        PROGRAM_LEN)).getD i [] = _
  rw [List.set_set]
  rw [List.getD_eq_getElem _ _ (by simpa using hi)]
  exact List.getElem_set_self (by simpa using hi)

/-- C10 witness: a one-program pool reacting with itself. -/
theorem self_reaction_keeps_second_half_witness :
    (0 : Nat) < [List.replicate 64 (0 : Nat)].length ∧
    (reactOne [List.replicate 64 (0 : Nat)] (0, 0, 7)).1.getD 0 [] =
      (execute (([List.replicate 64 (0 : Nat)].getD 0 []) ++
        ([List.replicate 64 (0 : Nat)].getD 0 [])) 7 10000).tape.drop
        PROGRAM_LEN :=
  ⟨by decide,
    self_reaction_keeps_second_half [List.replicate 64 0] 0 7 (by decide)⟩

end TuringFoam
